import Mathlib

/-!
Verification of the build-pipeline orchestrator of `gulpfile.babel.js`
(AndroidAssetStudio). The gulp task registry, the run-sequence staging of the
default target, the watch wiring, the HTML page-context aggregation, the
`%%BASE_HREF%%` substitution and the dev-mode flag are embedded from the
source; the `DependencyResolver` (`resolve`, cycle detection) exists only in
the design spec and is modelled from the spec's words.
-/

/- ================================================================
   The gulp task registry (gulpfile.babel.js, `gulp.task(...)` calls).
   `deps` is the declared dependency array (second argument of `gulp.task`);
   `seq` is the argument list of a `runSequence(...)` call performed by the
   task body (each element is one sequential position; a multi-element group
   is started concurrently), empty for tasks whose body is a plain action.
   ================================================================ -/

structure GulpTask where
  deps : List String
  seq : List (List String)
deriving DecidableEq

/-- The tasks registered by the gulpfile:
`webpack`, `res`, `copy`, `styles`, `html`, `clean`, `serve` (body:
`runSequence('__serve__')`), `__serve__` (deps `[styles, html, webpack]`),
`serve:dist` (deps `[default]`), `service-worker`,
`default` (deps `[clean]`, body `runSequence('styles', ['webpack','html','res','copy'], 'service-worker')`),
and `deploy`. -/
def gulpRegistry : List (String × GulpTask) :=
  [("webpack", ⟨[], []⟩),
   ("res", ⟨[], []⟩),
   ("copy", ⟨[], []⟩),
   ("styles", ⟨[], []⟩),
   ("html", ⟨[], []⟩),
   ("clean", ⟨[], []⟩),
   ("serve", ⟨[], [["__serve__"]]⟩),
   ("__serve__", ⟨["styles", "html", "webpack"], []⟩),
   ("serve:dist", ⟨["default"], []⟩),
   ("service-worker", ⟨[], []⟩),
   ("default", ⟨["clean"], [["styles"], ["webpack", "html", "res", "copy"], ["service-worker"]]⟩),
   ("deploy", ⟨[], []⟩)]

def lookupTask (s : String) : Option GulpTask :=
  match gulpRegistry.find? (fun p => p.1 == s) with
  | some p => some p.2
  | none => none

/-- Stage ordering produced by running a gulp task: gulp 3 first runs the
task's declared dependencies (concurrently, as one stage; a single dependency
is run with its own stages), then the task body. A body that is a
`runSequence(...)` call runs its arguments in order, a multi-task group as one
concurrent stage; a plain body is the step itself. `fuel` bounds the recursion
depth through the (finite, acyclic) registry. -/
def resolveStages : Nat → String → List (List String)
  | 0, _ => []
  | fuel+1, name =>
    match lookupTask name with
    | none => []
    | some t =>
      let depStages :=
        match t.deps with
        | [] => []
        | [d] => resolveStages fuel d
        | ds => [ds]
      let bodyStages :=
        if t.seq.isEmpty then [[name]]
        else (t.seq.map (fun grp =>
          match grp with
          | [g] => resolveStages fuel g
          | gs => [gs])).flatten
      depStages ++ bodyStages

/-- The stage list of the default build target. -/
def defaultStages : List (List String) := resolveStages 8 "default"

/-- The content-producing build steps of the pipeline (the spec's step
registry); the remaining gulp tasks (`default`, `serve`, `__serve__`,
`serve:dist`, `deploy`) are orchestration targets, not build steps. -/
def buildStepNames : List String :=
  ["clean", "styles", "html", "webpack", "res", "copy", "service-worker"]

theorem defaultStages_eq :
    defaultStages =
      [["clean"], ["styles"], ["webpack", "html", "res", "copy"], ["service-worker"]] := rfl

/- ================================================================
   Watch wiring (gulpfile.babel.js lines 187-189):
     gulp.watch(['app/html/**∕*.html'], ['html', reload]);
     gulp.watch(['app/**∕*.{scss,css}'], ['styles', reload]);
     gulp.watch(['app/res/**∕*'], reload);
   Each watcher maps a glob to the gulp tasks it starts (`reload` is the
   browser-sync completion callback, not a task).
   ================================================================ -/

def pfx : List Char → List Char → Bool
  | [], _ => true
  | _ :: _, [] => false
  | a :: as, b :: bs => decide (a = b) && pfx as bs

def strStartsWith (pre s : String) : Bool := pfx pre.data s.data

def strEndsWith (suf s : String) : Bool := pfx suf.data.reverse s.data.reverse

/-- Glob `app/html/**∕*.html`. -/
def watchHtmlMatch (p : String) : Bool :=
  strStartsWith "app/html/" p && strEndsWith ".html" p

/-- Glob `app/**∕*.{scss,css}`. -/
def watchStylesMatch (p : String) : Bool :=
  strStartsWith "app/" p && (strEndsWith ".scss" p || strEndsWith ".css" p)

/-- Glob `app/res/**∕*`. -/
def watchResMatch (p : String) : Bool := strStartsWith "app/res/" p

/-- The gulp tasks started when a change event arrives for path `p`: the
union of the task lists of the watchers whose glob matches `p` (the res
watcher starts no task, only the reload callback). -/
def watchTriggeredSteps (p : String) : List String :=
  (if watchHtmlMatch p then ["html"] else []) ++
  (if watchStylesMatch p then ["styles"] else []) ++
  (if watchResMatch p then [] else [])

/-- Declared dependency array of a gulp task (empty for unregistered names). -/
def declaredDeps (s : String) : List String :=
  match lookupTask s with
  | some t => t.deps
  | none => []

/-- Reflexive-transitive closure of a step's declared dependencies: the set of
steps that must run when `s`'s inputs change is exactly the steps whose
closure contains `s`. -/
def depClosure : Nat → String → List String
  | 0, s => [s]
  | fuel+1, s => s :: ((declaredDeps s).map (depClosure fuel)).flatten

/- ================================================================
   Dev-mode flag and BASE_HREF (gulpfile.babel.js lines 43-44, 154, 170):
     let DEV_MODE = false;
     let BASE_HREF = DEV_MODE ? '/' : '/AndroidAssetStudio/';
   `serve` later assigns `DEV_MODE = true` but never reassigns `BASE_HREF`.
   ================================================================ -/

/-- Initial value of the mutable `DEV_MODE` binding at module load. -/
def DEV_MODE_load : Bool := false

/-- `BASE_HREF` is computed once, at module load, from the then-current value
of `DEV_MODE` (line 44). -/
def BASE_HREF : String := if DEV_MODE_load then "/" else "/AndroidAssetStudio/"

/-- The gulpfile module's mutable top-level state: the `DEV_MODE` flag and the
`BASE_HREF` binding. -/
structure ModuleState where
  devMode : Bool
  baseHref : String
deriving DecidableEq

/-- Module state right after loading the gulpfile. -/
def loadModule : ModuleState := { devMode := DEV_MODE_load, baseHref := BASE_HREF }

/-- Effect of the `serve` task body on the module state (line 170): it sets
`DEV_MODE = true`; `BASE_HREF` is not reassigned anywhere in the file. -/
def serveTask (st : ModuleState) : ModuleState := { st with devMode := true }

/-- The value the html step substitutes for the placeholder (line 154 reads
the `BASE_HREF` binding). -/
def htmlSubstValue (st : ModuleState) : String := st.baseHref

/- ================================================================
   Claim theorems for C1, C3, C9.
   ================================================================ -/

/-- C1: resolving the default build target yields the stage ordering
`clean`, then `styles` alone, then the concurrent stage
`webpack, html, res, copy`, and `service-worker` last, after every other
step. -/
theorem default_target_stage_ordering :
    resolveStages 8 "default" =
      [["clean"], ["styles"], ["webpack", "html", "res", "copy"], ["service-worker"]] := rfl

/-- C3: a file-system change on a path matched only by the styles watcher (a
`.scss`/`.css` file) triggers exactly the build steps whose declared
dependency closure contains `styles`, and in particular never triggers
`res`. -/
theorem styles_watch_triggers_styles_closure (p : String)
    (hs : watchStylesMatch p = true) (hh : watchHtmlMatch p = false)
    (hr : watchResMatch p = false) :
    watchTriggeredSteps p =
      buildStepNames.filter (fun s => (depClosure 8 s).contains "styles") ∧
    "res" ∉ watchTriggeredSteps p := by
  have h1 : watchTriggeredSteps p = ["styles"] := by
    simp [watchTriggeredSteps, hs, hh, hr]
  refine ⟨?_, ?_⟩
  · rw [h1]; rfl
  · rw [h1]; decide

theorem styles_watch_triggers_styles_closure_witness :
    watchStylesMatch "app/styles/app.entry.scss" = true ∧
    watchTriggeredSteps "app/styles/app.entry.scss" =
      buildStepNames.filter (fun s => (depClosure 8 s).contains "styles") ∧
    "res" ∉ watchTriggeredSteps "app/styles/app.entry.scss" :=
  ⟨by decide,
   (styles_watch_triggers_styles_closure "app/styles/app.entry.scss"
     (by decide) (by decide) (by decide)).1,
   (styles_watch_triggers_styles_closure "app/styles/app.entry.scss"
     (by decide) (by decide) (by decide)).2⟩

/-- C9: the base-path value substituted for the placeholder is the constant
`/AndroidAssetStudio/` in every build: it is computed once at load time from
the dev-mode flag's initial `false` value, and the `serve` task's later switch
to dev mode never changes it. -/
theorem base_href_constant_across_dev_mode :
    htmlSubstValue loadModule = "/AndroidAssetStudio/" ∧
    htmlSubstValue (serveTask loadModule) = "/AndroidAssetStudio/" ∧
    (serveTask loadModule).devMode = true ∧
    ∀ st : ModuleState, htmlSubstValue (serveTask st) = htmlSubstValue st := by
  refine ⟨rfl, rfl, rfl, fun st => rfl⟩

/- ================================================================
   The html step (gulpfile.babel.js lines 113-159).
   gulp.src selects `app/html/**∕*.html` minus `app/html/**∕_*.html`;
   front matter is extracted into `file.frontMatter`; `contextData` starts as
   a copy of the front matter; `$.util.buffer()` collects ALL files before the
   next stage runs, which pushes `{path, data: frontMatter}` for every file
   into the shared `pages` array and re-emits the files in order; a tap then
   assigns `all_pages: pages` into each file's context; swig renders each file
   with its `contextData`.
   ================================================================ -/

structure InputFile where
  path : String
  frontMatter : List (String × String)
deriving DecidableEq

structure PageInfo where
  path : String
  data : List (String × String)
deriving DecidableEq

structure RenderContext where
  own : List (String × String)
  all_pages : List PageInfo
deriving DecidableEq

/-- The shared `pages` array after the buffer stage: one `{path, data}` record
per input file, in stream (input) order. -/
def collectPages (files : List InputFile) : List PageInfo :=
  files.map (fun f => ⟨f.path, f.frontMatter⟩)

/-- The render context handed to swig for each file: because of
`$.util.buffer()`, the `pages` array is fully populated before any file
reaches the `all_pages` tap, so every context carries the full list. -/
def htmlRenderContexts (files : List InputFile) : List (InputFile × RenderContext) :=
  files.map (fun f => (f, RenderContext.mk f.frontMatter (collectPages files)))

/-- Last path component (the file name) of a slash-separated path. -/
def baseName (s : String) : String :=
  ⟨(s.data.reverse.takeWhile (fun c => decide (c ≠ '/'))).reverse⟩

/-- Include glob `app/html/**∕*.html` of the html step's `gulp.src`. -/
def inclHtml (p : String) : Bool :=
  strStartsWith "app/html/" p && strEndsWith ".html" p

/-- Exclude glob `!app/html/**∕_*.html`: an html file under `app/html` whose
file name begins with an underscore. -/
def exclUnderscoreHtml (p : String) : Bool :=
  strStartsWith "app/html/" p && strEndsWith ".html" p && strStartsWith "_" (baseName p)

/-- A path enters the html step iff the include glob matches and the exclude
glob does not. -/
def htmlSelected (p : String) : Bool := inclHtml p && !(exclUnderscoreHtml p)

/-- The html step: select the content files, then render each with the
aggregated page context. -/
def htmlStep (all : List InputFile) : List (InputFile × RenderContext) :=
  htmlRenderContexts (all.filter (fun f => htmlSelected f.path))

/- ================================================================
   Step outcomes and error handling (gulpfile.babel.js lines 56-59, 234-240).
   `errorHandler` logs the error and emits `end`, so a stream error routed
   through it lets the task complete normally; only an unhandled error makes
   the task signal failure to the orchestrator. `runSequence` starts the next
   position only if the previous one completed without a signalled failure.
   ================================================================ -/

inductive StepOutcome where
  | ok
  | handledError
  | unhandledError
deriving DecidableEq

/-- A step's action errored (whether or not `errorHandler` swallowed it). -/
def stepFails : StepOutcome → Bool
  | StepOutcome.ok => false
  | StepOutcome.handledError => true
  | StepOutcome.unhandledError => true

/-- What the task reports to the orchestrator: `errorHandler` ends the stream,
so a handled error still counts as normal task completion. -/
def taskSignalsSuccess : StepOutcome → Bool
  | StepOutcome.ok => true
  | StepOutcome.handledError => true
  | StepOutcome.unhandledError => false

/-- Run a stage list in order (`runSequence` semantics): every step of a stage
is started; the next stage is started only when all steps of the current stage
signalled success. Returns the started steps and whether the run succeeded. -/
def runStages (outcome : String → StepOutcome) : List (List String) → List String × Bool
  | [] => ([], true)
  | stage :: rest =>
    if stage.all (fun s => taskSignalsSuccess (outcome s)) then
      let r := runStages outcome rest
      (stage ++ r.1, r.2)
    else (stage, false)

/-- Index of the first stage containing a step. -/
def firstStageIdx : List (List String) → String → Option Nat
  | [], _ => none
  | st :: rest, s => if s ∈ st then some 0 else (firstStageIdx rest s).map Nat.succ

/-- `B` runs in a strictly later stage of the default pipeline than `A`. -/
def laterInDefault (A B : String) : Bool :=
  match firstStageIdx defaultStages A, firstStageIdx defaultStages B with
  | some i, some j => decide (i < j)
  | _, _ => false

/- ================================================================
   Watch-run notifications (gulpfile.babel.js lines 187-189).
   `gulp.watch(glob, ['task', reload])` passes `reload` as the orchestrator's
   completion callback: it is invoked when the started tasks finish — with the
   error as argument if a task signalled failure — and `browserSync.reload`
   reloads in either case. Stream errors inside the tasks are routed through
   `errorHandler`, so the tasks complete normally. No error notification is
   ever published to the browser-sync observers; errors go to `console.error`.
   ================================================================ -/

inductive Notification where
  | reload
  | errorNote
deriving DecidableEq

/-- One watch-loop cycle for a change on path `p`: run the triggered steps,
then the completion callback (`reload`) fires. Returns whether the triggered
run succeeded and the notifications published to observers. -/
def watchRunFor (p : String) (outcome : String → StepOutcome) : Bool × List Notification :=
  ((watchTriggeredSteps p).all (fun s => taskSignalsSuccess (outcome s)),
   [Notification.reload])

/- ================================================================
   Claim theorems for C2 and C10.
   ================================================================ -/

/-- C2: the render context passed to the template renderer for every input
content file contains the full ordered page-record list for all input files —
one record per file, holding its source path and front matter — not only the
records of files already rendered. -/
theorem html_context_contains_all_pages (files : List InputFile)
    (fc : InputFile × RenderContext) (h : fc ∈ htmlRenderContexts files) :
    fc.2.all_pages = collectPages files ∧
    fc.2.all_pages.length = files.length ∧
    ∀ f ∈ files, PageInfo.mk f.path f.frontMatter ∈ fc.2.all_pages := by
  rcases List.mem_map.mp h with ⟨f, hf, rfl⟩
  refine ⟨rfl, ?_, ?_⟩
  · simp [collectPages]
  · intro g hg
    exact List.mem_map.mpr ⟨g, hg, rfl⟩

def filesW : List InputFile :=
  [⟨"a.page", [("title", "A")]⟩, ⟨"b.page", [("title", "B")]⟩]

def fcW : InputFile × RenderContext :=
  (⟨"a.page", [("title", "A")]⟩,
   ⟨[("title", "A")], [⟨"a.page", [("title", "A")]⟩, ⟨"b.page", [("title", "B")]⟩]⟩)

theorem html_context_contains_all_pages_witness :
    fcW ∈ htmlRenderContexts filesW ∧
    fcW.2.all_pages.length = filesW.length ∧
    PageInfo.mk "a.page" [("title", "A")] ∈ fcW.2.all_pages ∧
    PageInfo.mk "b.page" [("title", "B")] ∈ fcW.2.all_pages :=
  ⟨by decide,
   (html_context_contains_all_pages filesW fcW (by decide)).2.1,
   (html_context_contains_all_pages filesW fcW (by decide)).2.2
     ⟨"a.page", [("title", "A")]⟩ (by decide),
   (html_context_contains_all_pages filesW fcW (by decide)).2.2
     ⟨"b.page", [("title", "B")]⟩ (by decide)⟩

/-- C10: the html step never renders a content file whose file name begins
with an underscore, and every other file matching the `app/html/**∕*.html`
selection is processed. -/
theorem html_step_excludes_underscore_files (all : List InputFile) :
    (∀ fc ∈ htmlStep all, strStartsWith "_" (baseName fc.1.path) = false) ∧
    (∀ f ∈ all, inclHtml f.path = true → strStartsWith "_" (baseName f.path) = false →
      ∃ ctx, (f, ctx) ∈ htmlStep all) := by
  constructor
  · intro fc hfc
    rcases List.mem_map.mp hfc with ⟨f, hf, rfl⟩
    have hsel : htmlSelected f.path = true := (List.mem_filter.mp hf).2
    unfold htmlSelected exclUnderscoreHtml inclHtml at hsel
    rcases hu : strStartsWith "_" (baseName f.path) with _ | _
    · rfl
    · rw [hu] at hsel
      simp at hsel
      rcases hsel with ⟨⟨h1, h2⟩, h3 | h3⟩ <;> simp_all
  · intro f hf hincl hu
    have hsel : htmlSelected f.path = true := by
      simp [htmlSelected, exclUnderscoreHtml, hincl, hu]
    refine ⟨RenderContext.mk f.frontMatter
      (collectPages ((all.filter (fun g => htmlSelected g.path)))), ?_⟩
    exact List.mem_map.mpr ⟨f, List.mem_filter.mpr ⟨hf, hsel⟩, rfl⟩

def allFilesW : List InputFile :=
  [⟨"app/html/index.html", []⟩, ⟨"app/html/_base.html", []⟩]

theorem html_step_excludes_underscore_files_witness :
    (∀ fc ∈ htmlStep allFilesW, strStartsWith "_" (baseName fc.1.path) = false) ∧
    ∃ ctx, ((⟨"app/html/index.html", []⟩ : InputFile), ctx) ∈ htmlStep allFilesW :=
  ⟨(html_step_excludes_underscore_files allFilesW).1,
   (html_step_excludes_underscore_files allFilesW).2
     ⟨"app/html/index.html", []⟩ (by decide) (by decide) (by decide)⟩

/- ================================================================
   Claim theorems for C4 and C5.
   ================================================================ -/

theorem firstStageIdx_spec (s : String) :
    ∀ (stages : List (List String)) (j : Nat),
    firstStageIdx stages s = some j →
    ∃ sj, stages[j]? = some sj ∧ s ∈ sj ∧
      ∀ k sk, k < j → stages[k]? = some sk → s ∉ sk := by
  intro stages
  induction stages with
  | nil => intro j h; simp [firstStageIdx] at h
  | cons st rest ih =>
    intro j h
    by_cases hmem : s ∈ st
    · rw [firstStageIdx, if_pos hmem] at h
      cases h
      exact ⟨st, by simp, hmem, fun k sk hk => by omega⟩
    · rw [firstStageIdx, if_neg hmem] at h
      rcases Option.map_eq_some'.mp h with ⟨j', hj', rfl⟩
      rcases ih j' hj' with ⟨sj, h1, h2, h3⟩
      refine ⟨sj, by simpa using h1, h2, ?_⟩
      intro k sk hk hsk
      cases k with
      | zero =>
        have hstsk : st = sk := by simpa using hsk
        rw [← hstsk]; exact hmem
      | succ k' =>
        exact h3 k' sk (by omega) (by simpa using hsk)

theorem runStages_cons (outcome : String → StepOutcome) (st : List String)
    (rest : List (List String)) :
    runStages outcome (st :: rest) =
      if st.all (fun s => taskSignalsSuccess (outcome s)) then
        (st ++ (runStages outcome rest).1, (runStages outcome rest).2)
      else (st, false) := rfl

theorem runStages_skip (outcome : String → StepOutcome) :
    ∀ (stages : List (List String)) (i j : Nat) (si sj : List String) (A B : String),
    stages[i]? = some si → A ∈ si → taskSignalsSuccess (outcome A) = false →
    stages[j]? = some sj → B ∈ sj → i < j →
    (∀ k sk, k < j → stages[k]? = some sk → B ∉ sk) →
    B ∉ (runStages outcome stages).1 := by
  intro stages
  induction stages with
  | nil => intro i j si sj A B h1; simp at h1
  | cons st rest ih =>
    intro i j si sj A B h1 h2 h3 h4 h5 hij hfirst
    have hBst : B ∉ st := hfirst 0 st (by omega) (by simp)
    cases i with
    | zero =>
      have hsi : st = si := by simpa using h1
      have hall : st.all (fun s => taskSignalsSuccess (outcome s)) = false := by
        cases heq : st.all (fun s => taskSignalsSuccess (outcome s)) with
        | false => rfl
        | true =>
          have hA := List.all_eq_true.mp heq A (hsi ▸ h2)
          rw [h3] at hA
          exact absurd hA (by simp)
      rw [runStages_cons, hall]
      simpa using hBst
    | succ i' =>
      cases j with
      | zero => omega
      | succ j' =>
        cases hall : st.all (fun s => taskSignalsSuccess (outcome s)) with
        | false =>
          rw [runStages_cons, hall]
          simpa using hBst
        | true =>
          have hrec : B ∉ (runStages outcome rest).1 :=
            ih i' j' si sj A B (by simpa using h1) h2 h3 (by simpa using h4) h5
              (by omega)
              (fun k sk hk hsk => hfirst (k+1) sk (by omega) (by simpa using hsk))
          rw [runStages_cons, hall]
          simp only [if_true, List.mem_append]
          rintro (hc | hc)
          · exact hBst hc
          · exact hrec hc

/-- Outcome assignment in which the styles step's sass compile errors; the
error is routed through `errorHandler` (gulpfile line 102), so the styles task
completes normally. -/
def cexOutcomeC4 : String → StepOutcome :=
  fun s => if s = "styles" then StepOutcome.handledError else StepOutcome.ok

/-- C4 counterexample: the styles step fails (its action errored), styles runs
in a strictly earlier stage than `service-worker` (whose dependency chain
includes styles), and yet `service-worker` is started in the same run, because
`errorHandler` swallows the stream error and the task signals success. -/
theorem handled_error_does_not_stop_pipeline :
    stepFails (cexOutcomeC4 "styles") = true ∧
    laterInDefault "styles" "service-worker" = true ∧
    "service-worker" ∈ (runStages cexOutcomeC4 defaultStages).1 := by decide

/-- C4 (amended): if a step fails with an error NOT routed through
`errorHandler` (the task signals failure to `runSequence`), then no step of a
strictly later stage of the default pipeline is ever started in that run;
steps whose stream errors are handled by `errorHandler` complete as successes
and do not stop the run. -/
theorem unhandled_failure_stops_later_stages (outcome : String → StepOutcome)
    (A B : String) (hA : outcome A = StepOutcome.unhandledError)
    (hAB : laterInDefault A B = true) :
    B ∉ (runStages outcome defaultStages).1 := by
  unfold laterInDefault at hAB
  rcases hA1 : firstStageIdx defaultStages A with _ | i <;> rw [hA1] at hAB
  · simp at hAB
  · rcases hB1 : firstStageIdx defaultStages B with _ | j <;> rw [hB1] at hAB
    · simp at hAB
    · simp only [decide_eq_true_eq] at hAB
      rcases firstStageIdx_spec A defaultStages i hA1 with ⟨si, hsi, hAin, _⟩
      rcases firstStageIdx_spec B defaultStages j hB1 with ⟨sj, hsj, hBin, hBfirst⟩
      exact runStages_skip outcome defaultStages i j si sj A B hsi hAin
        (by rw [hA]; rfl) hsj hBin hAB hBfirst

def witOutcomeC4 : String → StepOutcome :=
  fun s => if s = "styles" then StepOutcome.unhandledError else StepOutcome.ok

theorem unhandled_failure_stops_later_stages_witness :
    witOutcomeC4 "styles" = StepOutcome.unhandledError ∧
    laterInDefault "styles" "service-worker" = true ∧
    "service-worker" ∉ (runStages witOutcomeC4 defaultStages).1 :=
  ⟨by decide, by decide,
   unhandled_failure_stops_later_stages witOutcomeC4 "styles" "service-worker"
     (by decide) (by decide)⟩

/-- Outcome assignment for a watch-mode run in which the styles sass compile
errors and is handled by `errorHandler`. -/
def cexOutcomeC5 : String → StepOutcome :=
  fun s => if s = "styles" then StepOutcome.handledError else StepOutcome.ok

/-- C5 counterexample: a watch run triggered by a `.scss` change whose styles
action errors (the run fails) still publishes a reload notification — the
task completes because `errorHandler` ends the stream — and no error
notification is published to observers. -/
theorem failed_watch_run_still_reloads :
    stepFails (cexOutcomeC5 "styles") = true ∧
    "styles" ∈ watchTriggeredSteps "app/styles/main.scss" ∧
    (watchRunFor "app/styles/main.scss" cexOutcomeC5).2 = [Notification.reload] ∧
    Notification.errorNote ∉ (watchRunFor "app/styles/main.scss" cexOutcomeC5).2 := by
  decide

/-- C5 (amended): after every watch-triggered run — successful or failed — a
reload notification is published to the connected observers, and an error
notification is never published; errors are only logged to the server
console. -/
theorem watch_run_always_reloads_never_error_note (p : String)
    (outcome : String → StepOutcome) :
    (watchRunFor p outcome).2 = [Notification.reload] ∧
    Notification.errorNote ∉ (watchRunFor p outcome).2 := by
  exact ⟨rfl, by simp [watchRunFor]⟩

/- ================================================================
   Stateful model of the default pipeline for C8.
   Every content-producing step reads the `app` tree (the inputs) with
   `gulp.src` and writes `dist`/`.tmp` (the outputs) with `gulp.dest`;
   `clean` deletes `.tmp` and `dist` (lines 162-166); `service-worker`
   additionally reads the output tree (`globDirectory: 'dist'`, line 216).
   `produce` and `swGen` are the opaque external step actions
   (sass, webpack, imagemin, workbox, ...), `none` meaning failure.
   ================================================================ -/

structure FS where
  inputs : List (String × String)
  outputs : List (String × String)

/-- One step of the default pipeline acting on the file system. -/
def runStep (produce : String → List (String × String) → Option (List (String × String)))
    (swGen : List (String × String) → Option (List (String × String)))
    (st : FS) (name : String) : Option FS :=
  if name = "clean" then some { st with outputs := [] }
  else if name = "service-worker" then
    match swGen st.outputs with
    | some fs => some { st with outputs := st.outputs ++ fs }
    | none => none
  else
    match produce name st.inputs with
    | some fs => some { st with outputs := st.outputs ++ fs }
    | none => none

/-- Run the steps of one stage; a failing step fails the stage. -/
def runStepsFS (produce : String → List (String × String) → Option (List (String × String)))
    (swGen : List (String × String) → Option (List (String × String))) :
    FS → List String → FS × Bool
  | st, [] => (st, true)
  | st, n :: rest =>
    match runStep produce swGen st n with
    | some st2 => runStepsFS produce swGen st2 rest
    | none => (st, false)

/-- Run the stages in order, stopping at the first failing stage
(`runSequence` fail-fast). -/
def runPipelineFS (produce : String → List (String × String) → Option (List (String × String)))
    (swGen : List (String × String) → Option (List (String × String))) :
    FS → List (List String) → FS × Bool
  | st, [] => (st, true)
  | st, stage :: rest =>
    match runStepsFS produce swGen st stage with
    | (st2, true) => runPipelineFS produce swGen st2 rest
    | (st2, false) => (st2, false)

/-- One run of the default target: the resolved default stages over the file
system, returning the final state and the run's success (`RunResult.succeeded`). -/
def runDefault (produce : String → List (String × String) → Option (List (String × String)))
    (swGen : List (String × String) → Option (List (String × String)))
    (st : FS) : FS × Bool :=
  runPipelineFS produce swGen st defaultStages

theorem runStep_inputs (produce : String → List (String × String) → Option (List (String × String)))
    (swGen : List (String × String) → Option (List (String × String)))
    (st st2 : FS) (n : String) (h : runStep produce swGen st n = some st2) :
    st2.inputs = st.inputs := by
  unfold runStep at h
  split at h
  · cases h; rfl
  · split at h
    · rcases hsw : swGen st.outputs with _ | fs <;> rw [hsw] at h
      · cases h
      · cases h; rfl
    · rcases hp : produce n st.inputs with _ | fs <;> rw [hp] at h
      · cases h
      · cases h; rfl

theorem runStepsFS_inputs (produce : String → List (String × String) → Option (List (String × String)))
    (swGen : List (String × String) → Option (List (String × String))) :
    ∀ (stage : List String) (st : FS),
    (runStepsFS produce swGen st stage).1.inputs = st.inputs := by
  intro stage
  induction stage with
  | nil => intro st; rfl
  | cons n rest ih =>
    intro st
    rw [runStepsFS]
    rcases hstep : runStep produce swGen st n with _ | st2
    · rfl
    · rw [ih st2, runStep_inputs produce swGen st st2 n hstep]

theorem runPipelineFS_inputs (produce : String → List (String × String) → Option (List (String × String)))
    (swGen : List (String × String) → Option (List (String × String))) :
    ∀ (stages : List (List String)) (st : FS),
    (runPipelineFS produce swGen st stages).1.inputs = st.inputs := by
  intro stages
  induction stages with
  | nil => intro st; rfl
  | cons stage rest ih =>
    intro st
    rw [runPipelineFS]
    rcases hstage : runStepsFS produce swGen st stage with ⟨st2, b⟩
    have hst2 : st2.inputs = st.inputs := by
      have := runStepsFS_inputs produce swGen stage st
      rw [hstage] at this
      exact this
    cases b
    · exact hst2
    · rw [ih st2, hst2]

/-- The default run is a function of the input tree alone: its first stage is
`clean`, which resets the output tree. -/
theorem runDefault_inputs_only (produce : String → List (String × String) → Option (List (String × String)))
    (swGen : List (String × String) → Option (List (String × String)))
    (st : FS) :
    runDefault produce swGen st =
      runPipelineFS produce swGen (FS.mk st.inputs [])
        [["styles"], ["webpack", "html", "res", "copy"], ["service-worker"]] := by
  rw [runDefault, defaultStages_eq]
  rw [runPipelineFS]
  have hclean : runStepsFS produce swGen st ["clean"] = (FS.mk st.inputs [], true) := by
    rw [runStepsFS]
    have : runStep produce swGen st "clean" = some (FS.mk st.inputs []) := by
      unfold runStep
      simp
    rw [this]
    rfl
  rw [hclean]

/-- C8: running the default target twice in a row over unchanged inputs (no
step writes the `app` tree, and the runs use the same external step actions)
yields the same `succeeded` value both times. -/
theorem default_run_idempotent_success
    (produce : String → List (String × String) → Option (List (String × String)))
    (swGen : List (String × String) → Option (List (String × String)))
    (st : FS) :
    (runDefault produce swGen (runDefault produce swGen st).1).2 =
      (runDefault produce swGen st).2 := by
  rw [runDefault_inputs_only produce swGen (runDefault produce swGen st).1,
    runDefault_inputs_only produce swGen st, runPipelineFS_inputs]

/- ================================================================
   The placeholder substitution of the html step (gulpfile line 154):
     .pipe($.replace(/%%BASE_HREF%%/g, BASE_HREF))
   applied to each rendered page before both `gulp.dest('.tmp')` and
   `gulp.dest('dist')`. `replaceAll` is the left-to-right, non-overlapping
   global replacement performed by a `/.../g` string replace.
   ================================================================ -/

/-- `true` iff some position of the text starts an occurrence of `pat`. -/
def hasOccur (pat : List Char) : List Char → Bool
  | [] => pfx pat []
  | c :: rest => pfx pat (c :: rest) || hasOccur pat rest

/-- Global regex replacement of the literal pattern `pat` by `rep`: scan left
to right; at a match, consume the whole match, emit `rep` and continue after
it; otherwise keep the character and continue. -/
def replaceAll (pat rep : List Char) : List Char → List Char
  | [] => []
  | c :: rest =>
    if pfx pat (c :: rest) then
      rep ++ replaceAll pat rep (rest.drop (pat.length - 1))
    else c :: replaceAll pat rep rest
termination_by s => s.length
decreasing_by
  all_goals simp [List.length_drop]
  all_goals omega

/-- The placeholder token `%%BASE_HREF%%` of the html templates. -/
def bhPat : List Char := "%%BASE_HREF%%".data

/-- The replacement text: the `BASE_HREF` binding. -/
def bhRep : List Char := BASE_HREF.data

/-- The page text written to the output destinations: the rendered page after
the placeholder substitution. -/
def writtenToTmp (rendered : List Char) : List Char := replaceAll bhPat bhRep rendered

theorem hasOccur_append_head_notMem (p0 : Char) (pt : List Char) :
    ∀ (r x : List Char), p0 ∉ r →
    hasOccur (p0 :: pt) (r ++ x) = hasOccur (p0 :: pt) x := by
  intro r
  induction r with
  | nil => intro x h; rfl
  | cons a r' ih =>
    intro x h
    have hne : p0 ≠ a := fun he => h (he ▸ List.mem_cons_self a r')
    rw [List.cons_append, hasOccur, pfx, decide_eq_false hne]
    simp only [Bool.false_and, Bool.false_or]
    exact ih x (fun hm => h (List.mem_cons_of_mem a hm))

theorem pfx_replaceAll_reflect (pat : List Char) (r0 : Char) (r1 : List Char) :
    ∀ (t u : List Char), r0 ∉ u →
    pfx u (replaceAll pat (r0 :: r1) t) = true → pfx u t = true := by
  intro t
  induction t with
  | nil =>
    intro u hu h
    simp only [replaceAll] at h
    cases u with
    | nil => rfl
    | cons u0 u' => exact absurd h (by rw [pfx]; simp)
  | cons c rest ih =>
    intro u hu h
    simp only [replaceAll] at h
    split at h
    · cases u with
      | nil => rfl
      | cons u0 u' =>
        rw [List.cons_append, pfx, Bool.and_eq_true] at h
        rcases h with ⟨he, _⟩
        have : u0 = r0 := of_decide_eq_true he
        exact absurd (this ▸ List.mem_cons_self u0 u') hu
    · cases u with
      | nil => rfl
      | cons u0 u' =>
        rw [pfx, Bool.and_eq_true] at h
        rcases h with ⟨he, htail⟩
        have hrec := ih u' (fun hm => hu (List.mem_cons_of_mem u0 hm)) htail
        rw [pfx, he, hrec]
        rfl

theorem replaceAll_no_occur (p0 : Char) (pt : List Char) (r0 : Char) (r1 : List Char)
    (h0 : p0 ∉ r0 :: r1) (h2 : r0 ∉ pt) :
    ∀ (n : Nat) (s : List Char), s.length ≤ n →
    hasOccur (p0 :: pt) (replaceAll (p0 :: pt) (r0 :: r1) s) = false := by
  intro n
  induction n with
  | zero =>
    intro s hs
    have hnil : s = [] := List.eq_nil_of_length_eq_zero (Nat.le_zero.mp hs)
    subst hnil
    simp only [replaceAll]
    rfl
  | succ n ih =>
    intro s hs
    cases s with
    | nil =>
      simp only [replaceAll]
      rfl
    | cons c rest =>
      have hlen : rest.length ≤ n := by
        simp only [List.length_cons] at hs
        omega
      simp only [replaceAll]
      split
      · rw [hasOccur_append_head_notMem p0 pt (r0 :: r1) _ h0]
        exact ih _ (by simp only [List.length_drop]; omega)
      · rename_i hcond
        rw [hasOccur, ih rest hlen, Bool.or_false]
        cases hp : pfx (p0 :: pt) (c :: replaceAll (p0 :: pt) (r0 :: r1) rest) with
        | false => rfl
        | true =>
          exfalso
          rw [pfx, Bool.and_eq_true] at hp
          rcases hp with ⟨he, hptail⟩
          have hrefl := pfx_replaceAll_reflect (p0 :: pt) r0 r1 rest pt h2 hptail
          exact hcond (by rw [pfx, he, hrefl]; rfl)

/-- C6: every occurrence of the configured placeholder token in a rendered
page is replaced before the result is written to the output destination: the
written text contains no occurrence of `%%BASE_HREF%%`, whatever the rendered
input was. -/
theorem html_written_output_placeholder_free (rendered : List Char) :
    hasOccur bhPat (writtenToTmp rendered) = false := by
  have hpat : bhPat = '%' :: "%BASE_HREF%%".data := by decide
  have hrep : bhRep = '/' :: "AndroidAssetStudio/".data := by decide
  rw [writtenToTmp, hpat, hrep]
  exact replaceAll_no_occur '%' "%BASE_HREF%%".data '/' "AndroidAssetStudio/".data
    (by decide) (by decide) rendered.length rendered (Nat.le_refl _)

/- ================================================================
   DependencyResolver (spec §4.2) — C7.
   The gulpfile has no resolver of its own (ordering is done by the
   run-sequence library); the `resolve` operation below exists only in the
   design spec and is modelled from its words: depth-first traversal
   computing each step's stage as 1 + max(stage of each dependency), stage 0
   for steps with no dependencies, cycle detection via an in-progress (gray)
   marker, `CyclicDependencyError` naming the cycle, `UnknownDependencyError`
   for unregistered reachable names.
   ================================================================ -/

abbrev Reg := List (String × List String)

def regNames (reg : Reg) : List String := reg.map (fun p => p.1)

def depsOf : Reg → String → Option (List String)
  | [], _ => none
  | p :: rest, s => if p.1 = s then some p.2 else depsOf rest s

/-- Well-formed registry: every declared dependency references a registered
step (spec §3: dependency names "must reference registered steps"). -/
def WFReg (reg : Reg) : Prop := ∀ p ∈ reg, ∀ d ∈ p.2, d ∈ regNames reg

instance (reg : Reg) : Decidable (WFReg reg) := by
  unfold WFReg; infer_instance

inductive ResolveError where
  | cyclic (cycle : List String)
  | unknownDep (name : String)
deriving DecidableEq

def lookupStage : List (String × Nat) → String → Option Nat
  | [], _ => none
  | p :: rest, s => if p.1 = s then some p.2 else lookupStage rest s

def hasKey (done : List (String × Nat)) (s : String) : Bool := (lookupStage done s).isSome

/-- Stage of a step from the stages of its dependencies: 0 with no
dependencies, otherwise 1 + the maximum dependency stage (spec §4.2). -/
def stageFromDeps (done : List (String × Nat)) (ds : List String) : Nat :=
  ds.foldl (fun acc d => max acc ((lookupStage done d).getD 0 + 1)) 0

mutual

/-- Modelled from the spec: the DependencyResolver's depth-first visit, a
component absent from the gulpfile. `gray` is the in-progress stack (cycle
detection), `done` maps finished (black) steps to their stage. A step already
staged is skipped; a gray step closes a cycle and fails with
`CyclicDependencyError` naming it; an unregistered step fails with
`UnknownDependencyError`; otherwise the dependencies are visited first and the
step's stage is computed from theirs. `fuel` bounds the recursion depth
(resolve passes more fuel than any DFS path can consume; exhaustion is
conservatively reported as a cycle). -/
def visit (reg : Reg) : Nat → List String → List (String × Nat) → String →
    Except ResolveError (List (String × Nat))
  | 0, gray, _, _ => .error (.cyclic gray)
  | fuel+1, gray, done, s =>
    match lookupStage done s with
    | some _ => .ok done
    | none =>
      if s ∈ gray then .error (.cyclic (s :: gray))
      else
        match depsOf reg s with
        | none => .error (.unknownDep s)
        | some ds =>
          match visitList reg fuel (s :: gray) done ds with
          | .error e => .error e
          | .ok done2 => .ok ((s, stageFromDeps done2 ds) :: done2)
termination_by fuel _ _ _ => (fuel, 0)

/-- Modelled from the spec: visit a list of targets in order, threading the
stage map and propagating the first error. -/
def visitList (reg : Reg) : Nat → List String → List (String × Nat) →
    List String → Except ResolveError (List (String × Nat))
  | _, _, done, [] => .ok done
  | fuel, gray, done, d :: ds =>
    match visit reg fuel gray done d with
    | .error e => .error e
    | .ok done2 => visitList reg fuel gray done2 ds
termination_by fuel _ _ ds => (fuel, ds.length + 1)

end

def maxStage (done : List (String × Nat)) : Nat := done.foldl (fun a p => max a p.2) 0

/-- The BuildGraph: steps grouped by stage number, in stage order. -/
def groupStages (done : List (String × Nat)) : List (List String) :=
  (List.range (maxStage done + 1)).map
    (fun i => ((done.filter (fun p => p.2 == i)).map (fun p => p.1)).reverse)

/-- Modelled from the spec: `resolve` for the whole registered step graph —
either a complete BuildGraph or an error; by construction no partial graph is
ever returned. -/
def resolve (reg : Reg) : Except ResolveError (List (List String)) :=
  match visitList reg (reg.length + 1) [] [] (regNames reg) with
  | .error e => .error e
  | .ok done => .ok (groupStages done)

/-- Dependency edge of the registered step graph: `a` declares `b` as a
dependency. -/
def Edge (reg : Reg) (a b : String) : Prop := b ∈ (depsOf reg a).getD []

instance (reg : Reg) (a b : String) : Decidable (Edge reg a b) := by
  unfold Edge; infer_instance

/-- A step transitively depends on itself. -/
def HasCycle (reg : Reg) : Prop := ∃ s, Relation.TransGen (Edge reg) s s

theorem lookupStage_some_mem :
    ∀ (done : List (String × Nat)) (s : String) (m : Nat),
    lookupStage done s = some m → (s, m) ∈ done := by
  intro done
  induction done with
  | nil => intro s m h; cases h
  | cons p rest ih =>
    intro s m h
    rw [lookupStage] at h
    split at h
    · cases h
      rename_i hps
      rw [← hps]
      exact List.mem_cons_self p rest
    · exact List.mem_cons_of_mem p (ih s m h)

theorem lookupStage_append_isSome :
    ∀ (pre done : List (String × Nat)) (s : String),
    (lookupStage done s).isSome = true → (lookupStage (pre ++ done) s).isSome = true := by
  intro pre done s
  induction pre with
  | nil => intro h; exact h
  | cons p pre ih =>
    intro h
    rw [List.cons_append, lookupStage]
    split
    · rfl
    · exact ih h

theorem lookupStage_none_not_key :
    ∀ (done : List (String × Nat)) (s : String),
    lookupStage done s = none → s ∉ done.map (fun p => p.1) := by
  intro done
  induction done with
  | nil => intro s _ h; cases h
  | cons p rest ih =>
    intro s h hmem
    rw [lookupStage] at h
    split at h
    · cases h
    · rcases List.mem_cons.mp hmem with he | hm
      · rename_i hne; exact hne he.symm
      · exact ih s h hm

theorem lookupStage_cons_ne (p : String × Nat) (done : List (String × Nat)) (s : String)
    (h : p.1 ≠ s) : lookupStage (p :: done) s = lookupStage done s := by
  rw [lookupStage, if_neg h]

theorem mem_entry_mem_names (reg : Reg) (p : String × List String) (h : p ∈ reg) :
    p.1 ∈ regNames reg := List.mem_map.mpr ⟨p, h, rfl⟩

theorem depsOf_some_mem_entry :
    ∀ (reg : Reg) (s : String) (ds : List String),
    depsOf reg s = some ds → (s, ds) ∈ reg := by
  intro reg
  induction reg with
  | nil => intro s ds h; cases h
  | cons p rest ih =>
    intro s ds h
    rw [depsOf] at h
    split at h
    · cases h
      rename_i hps
      rw [← hps]
      exact List.mem_cons_self p rest
    · exact List.mem_cons_of_mem p (ih s ds h)

theorem mem_names_depsOf_isSome :
    ∀ (reg : Reg) (s : String), s ∈ regNames reg → ∃ ds, depsOf reg s = some ds := by
  intro reg
  induction reg with
  | nil => intro s h; cases h
  | cons p rest ih =>
    intro s h
    rw [depsOf]
    by_cases hps : p.1 = s
    · exact ⟨p.2, by rw [if_pos hps]⟩
    · rcases List.mem_cons.mp h with he | hm
      · exact absurd he.symm hps
      · rw [if_neg hps]
        exact ih s hm

theorem depsOf_wf (reg : Reg) (hwf : WFReg reg) (s : String) (ds : List String)
    (h : depsOf reg s = some ds) : ∀ d ∈ ds, d ∈ regNames reg :=
  hwf (s, ds) (depsOf_some_mem_entry reg s ds h)

theorem stage_foldl_init_le (done : List (String × Nat)) :
    ∀ (l : List String) (a : Nat),
    a ≤ l.foldl (fun acc d => max acc ((lookupStage done d).getD 0 + 1)) a := by
  intro l
  induction l with
  | nil => intro a; exact Nat.le_refl a
  | cons x l ih =>
    intro a
    calc a ≤ max a ((lookupStage done x).getD 0 + 1) := Nat.le_max_left _ _
      _ ≤ _ := ih _

theorem stageFromDeps_lt (done : List (String × Nat)) :
    ∀ (ds : List String) (a : Nat) (d : String) (m : Nat), d ∈ ds →
    lookupStage done d = some m →
    m < ds.foldl (fun acc x => max acc ((lookupStage done x).getD 0 + 1)) a := by
  intro ds
  induction ds with
  | nil => intro a d m hd; cases hd
  | cons x ds ih =>
    intro a d m hd hm
    rcases List.mem_cons.mp hd with rfl | hd'
    · rw [List.foldl_cons]
      have h1 : m < max a ((lookupStage done d).getD 0 + 1) := by
        rw [hm]
        exact Nat.lt_of_lt_of_le (Nat.lt_succ_self m) (Nat.le_max_right a (m + 1))
      exact Nat.lt_of_lt_of_le h1 (stage_foldl_init_le done ds _)
    · rw [List.foldl_cons]
      exact ih _ d m hd' hm

/-- Keys of the stage map are distinct. -/
def DoneNodup (done : List (String × Nat)) : Prop := (done.map (fun p => p.1)).Nodup

/-- Every staged step is registered and all its dependencies are staged
strictly earlier (the BuildGraph invariant of spec §3). -/
def DoneClosed (reg : Reg) (done : List (String × Nat)) : Prop :=
  ∀ p ∈ done, ∃ ds, depsOf reg p.1 = some ds ∧
    ∀ d ∈ ds, ∃ m, lookupStage done d = some m ∧ m < p.2

def DoneInv (reg : Reg) (done : List (String × Nat)) : Prop :=
  DoneNodup done ∧ DoneClosed reg done

theorem hasKey_false_none (done : List (String × Nat)) (s : String)
    (h : hasKey done s = false) : lookupStage done s = none := by
  unfold hasKey at h
  rcases hx : lookupStage done s with _ | v
  · rfl
  · rw [hx] at h; cases h

theorem hasKey_true_some (done : List (String × Nat)) (s : String)
    (h : hasKey done s = true) : ∃ m, lookupStage done s = some m := by
  unfold hasKey at h
  rcases hx : lookupStage done s with _ | v
  · rw [hx] at h; cases h
  · exact ⟨v, rfl⟩

theorem visit_ok_props (reg : Reg) :
    ∀ fuel : Nat,
      (∀ gray done s out, visit reg fuel gray done s = Except.ok out →
        (∃ pre, out = pre ++ done) ∧
        hasKey out s = true ∧
        (∀ g ∈ gray, hasKey done g = false → hasKey out g = false) ∧
        (DoneInv reg done → DoneInv reg out)) ∧
      (∀ gray done ts out, visitList reg fuel gray done ts = Except.ok out →
        (∃ pre, out = pre ++ done) ∧
        (∀ t ∈ ts, hasKey out t = true) ∧
        (∀ g ∈ gray, hasKey done g = false → hasKey out g = false) ∧
        (DoneInv reg done → DoneInv reg out)) := by
  intro fuel
  induction fuel with
  | zero =>
    constructor
    · intro gray done s out h
      simp only [visit] at h
      exact Except.noConfusion h
    · intro gray done ts out h
      cases ts with
      | nil =>
        simp only [visitList] at h
        injection h with h
        subst h
        exact ⟨⟨[], rfl⟩, by simp, fun g hg hk => hk, fun hi => hi⟩
      | cons d ds =>
        simp only [visitList, visit] at h
        exact Except.noConfusion h
  | succ fuel ih =>
    have hvisit : ∀ gray done s out, visit reg (fuel+1) gray done s = Except.ok out →
        (∃ pre, out = pre ++ done) ∧
        hasKey out s = true ∧
        (∀ g ∈ gray, hasKey done g = false → hasKey out g = false) ∧
        (DoneInv reg done → DoneInv reg out) := by
      intro gray done s out h
      simp only [visit] at h
      split at h
      · -- already black
        rename_i st hls
        injection h with h
        subst h
        refine ⟨⟨[], rfl⟩, ?_, fun g hg hk => hk, fun hi => hi⟩
        unfold hasKey
        rw [hls]
        rfl
      · rename_i hls
        split at h
        · cases h
        · rename_i hsgray
          split at h
          · cases h
          · rename_i ds hds
            split at h
            · cases h
            · rename_i done2 hvl
              injection h with h
              subst h
              obtain ⟨⟨pre2, hpre2⟩, hall2, hgray2, hinv2⟩ :=
                ih.2 (s :: gray) done ds done2 hvl
              have hkey_s_done : hasKey done s = false := by
                unfold hasKey; rw [hls]; rfl
              have hkey_s_done2 : hasKey done2 s = false :=
                hgray2 s (List.mem_cons_self s gray) hkey_s_done
              have hlsd2 : lookupStage done2 s = none := hasKey_false_none done2 s hkey_s_done2
              refine ⟨⟨(s, stageFromDeps done2 ds) :: pre2, by rw [hpre2]; rfl⟩, ?_, ?_, ?_⟩
              · unfold hasKey
                rw [lookupStage, if_pos rfl]
                rfl
              · intro g hg hk
                have hne : (s, stageFromDeps done2 ds).1 ≠ g := by
                  intro he
                  have he2 : s = g := he
                  exact hsgray (he2 ▸ hg)
                have h2 : hasKey done2 g = false :=
                  hgray2 g (List.mem_cons_of_mem s hg) hk
                unfold hasKey
                rw [lookupStage_cons_ne _ _ _ hne]
                exact h2
              · intro hinvdone
                have hinv2d : DoneInv reg done2 := hinv2 hinvdone
                constructor
                · unfold DoneNodup
                  rw [List.map_cons]
                  exact List.nodup_cons.mpr
                    ⟨lookupStage_none_not_key done2 s hlsd2, hinv2d.1⟩
                · intro p hp
                  rcases List.mem_cons.mp hp with rfl | hp'
                  · refine ⟨ds, hds, ?_⟩
                    intro d hd
                    obtain ⟨m, hm⟩ := hasKey_true_some done2 d (hall2 d hd)
                    have hdne : (s, stageFromDeps done2 ds).1 ≠ d := by
                      intro he
                      have he2 : s = d := he
                      rw [← he2] at hm
                      rw [hlsd2] at hm
                      cases hm
                    refine ⟨m, ?_, ?_⟩
                    · rw [lookupStage_cons_ne _ _ _ hdne]
                      exact hm
                    · exact stageFromDeps_lt done2 ds 0 d m hd hm
                  · obtain ⟨dsp, hdsp, hdall⟩ := hinv2d.2 p hp'
                    refine ⟨dsp, hdsp, ?_⟩
                    intro d hd
                    obtain ⟨m, hm, hlt⟩ := hdall d hd
                    have hdne : (s, stageFromDeps done2 ds).1 ≠ d := by
                      intro he
                      have he2 : s = d := he
                      rw [← he2] at hm
                      rw [hlsd2] at hm
                      cases hm
                    exact ⟨m, by rw [lookupStage_cons_ne _ _ _ hdne]; exact hm, hlt⟩
    have hlist : ∀ gray done ts out, visitList reg (fuel+1) gray done ts = Except.ok out →
        (∃ pre, out = pre ++ done) ∧
        (∀ t ∈ ts, hasKey out t = true) ∧
        (∀ g ∈ gray, hasKey done g = false → hasKey out g = false) ∧
        (DoneInv reg done → DoneInv reg out) := by
      intro gray done ts
      induction ts generalizing done with
      | nil =>
        intro out h
        simp only [visitList] at h
        injection h with h
        subst h
        exact ⟨⟨[], rfl⟩, by simp, fun g hg hk => hk, fun hi => hi⟩
      | cons d ds ihts =>
        intro out h
        simp only [visitList] at h
        split at h
        · cases h
        · rename_i done2 hv
          obtain ⟨⟨pre1, hpre1⟩, hkeyd, hgray1, hinv1⟩ := hvisit gray done d done2 hv
          obtain ⟨⟨pre2, hpre2⟩, hallds, hgray2, hinv2⟩ := ihts done2 out h
          refine ⟨⟨pre2 ++ pre1, by rw [hpre2, hpre1, List.append_assoc]⟩, ?_, ?_,
            fun hi => hinv2 (hinv1 hi)⟩
          · intro t ht
            rcases List.mem_cons.mp ht with rfl | ht'
            · rw [hpre2]
              unfold hasKey
              exact lookupStage_append_isSome pre2 done2 t hkeyd
            · exact hallds t ht'
          · intro g hg hk
            exact hgray2 g hg (hgray1 g hg hk)
    exact ⟨hvisit, hlist⟩

theorem visit_no_unknown (reg : Reg) (hwf : WFReg reg) :
    ∀ fuel : Nat,
      (∀ gray done s, s ∈ regNames reg →
        ∀ u, visit reg fuel gray done s ≠ Except.error (ResolveError.unknownDep u)) ∧
      (∀ gray done ts, (∀ t ∈ ts, t ∈ regNames reg) →
        ∀ u, visitList reg fuel gray done ts ≠ Except.error (ResolveError.unknownDep u)) := by
  intro fuel
  induction fuel with
  | zero =>
    constructor
    · intro gray done s hs u h
      simp only [visit] at h
      simp at h
    · intro gray done ts hts u h
      cases ts with
      | nil =>
        simp only [visitList] at h
        exact Except.noConfusion h
      | cons d ds =>
        simp only [visitList, visit] at h
        simp at h
  | succ fuel ih =>
    have hvisit : ∀ gray done s, s ∈ regNames reg →
        ∀ u, visit reg (fuel+1) gray done s ≠ Except.error (ResolveError.unknownDep u) := by
      intro gray done s hs u h
      simp only [visit] at h
      split at h
      · exact Except.noConfusion h
      · rename_i hls
        split at h
        · simp at h
        · rename_i hsgray
          split at h
          · rename_i hds
            obtain ⟨ds, hds2⟩ := mem_names_depsOf_isSome reg s hs
            rw [hds2] at hds
            cases hds
          · rename_i ds hds
            split at h
            · rename_i e hvl
              injection h with h2
              subst h2
              exact ih.2 (s :: gray) done ds (depsOf_wf reg hwf s ds hds) u hvl
            · exact Except.noConfusion h
    have hlist : ∀ gray done ts, (∀ t ∈ ts, t ∈ regNames reg) →
        ∀ u, visitList reg (fuel+1) gray done ts ≠ Except.error (ResolveError.unknownDep u) := by
      intro gray done ts
      induction ts generalizing done with
      | nil =>
        intro hts u h
        simp only [visitList] at h
        exact Except.noConfusion h
      | cons d ds ihts =>
        intro hts u h
        simp only [visitList] at h
        split at h
        · rename_i e hv
          injection h with h2
          subst h2
          exact hvisit gray done d (hts d (List.mem_cons_self d ds)) u hv
        · rename_i done2 hv
          exact ihts done2 (fun t ht => hts t (List.mem_cons_of_mem d ht)) u h
    exact ⟨hvisit, hlist⟩

/-- C7: for every well-formed step graph containing a dependency cycle (a
step that transitively depends on itself), `resolve` fails with
`CyclicDependencyError` (carrying the detected cycle); since `resolve` returns
either a complete BuildGraph or an error, no partial build graph is ever
returned. -/
theorem resolve_cyclic_error (reg : Reg) (hwf : WFReg reg) (hcyc : HasCycle reg) :
    ∃ c, resolve reg = Except.error (ResolveError.cyclic c) := by
  rcases hrun : visitList reg (reg.length + 1) [] [] (regNames reg) with e | done
  · cases e with
    | cyclic c =>
      refine ⟨c, ?_⟩
      rw [resolve, hrun]
    | unknownDep u =>
      exact absurd hrun
        ((visit_no_unknown reg hwf (reg.length + 1)).2 [] [] (regNames reg)
          (fun t ht => ht) u)
  · exfalso
    obtain ⟨_, hall, _, hinv⟩ :=
      (visit_ok_props reg (reg.length + 1)).2 [] [] (regNames reg) done hrun
    have hinv2 : DoneInv reg done :=
      hinv ⟨List.nodup_nil, fun p hp => absurd hp (List.not_mem_nil p)⟩
    rcases hcyc with ⟨s, hpath⟩
    have hedge : ∀ a b, Edge reg a b → ∃ na nb, lookupStage done a = some na ∧
        lookupStage done b = some nb ∧ nb < na := by
      intro a b he
      rcases hda : depsOf reg a with _ | ds
      · unfold Edge at he
        rw [hda] at he
        simp at he
      · have hb : b ∈ ds := by
          unfold Edge at he
          rw [hda] at he
          exact he
        have haname : a ∈ regNames reg :=
          mem_entry_mem_names reg (a, ds) (depsOf_some_mem_entry reg a ds hda)
        obtain ⟨na, hna⟩ := hasKey_true_some done a (hall a haname)
        obtain ⟨dsa, hdsa, hdall⟩ := hinv2.2 (a, na) (lookupStage_some_mem done a na hna)
        have hdsa2 : depsOf reg a = some dsa := hdsa
        rw [hda] at hdsa2
        injection hdsa2 with hds_eq
        subst hds_eq
        obtain ⟨nb, hnb, hlt⟩ := hdall b hb
        exact ⟨na, nb, hna, hnb, hlt⟩
    have hdec : ∀ a b, Relation.TransGen (Edge reg) a b →
        ∃ na nb, lookupStage done a = some na ∧ lookupStage done b = some nb ∧ nb < na := by
      intro a b hab
      induction hab with
      | single h => exact hedge _ _ h
      | tail hab hbc ihab =>
        obtain ⟨na, nb, h1, h2, h3⟩ := ihab
        obtain ⟨nb', nc, h4, h5, h6⟩ := hedge _ _ hbc
        rw [h2] at h4
        injection h4 with h4
        subst h4
        exact ⟨na, nc, h1, h5, by omega⟩
    obtain ⟨na, nb, h1, h2, h3⟩ := hdec s s hpath
    rw [h1] at h2
    injection h2 with h2
    omega

def regWitness : Reg := [("a", ["b"]), ("b", ["a"])]

theorem resolve_cyclic_error_witness :
    WFReg regWitness ∧ HasCycle regWitness ∧
    ∃ c, resolve regWitness = Except.error (ResolveError.cyclic c) := by
  have e1 : Edge regWitness "a" "b" := by decide
  have e2 : Edge regWitness "b" "a" := by decide
  have hwf : WFReg regWitness := by decide
  have hcyc : HasCycle regWitness :=
    ⟨"a", Relation.TransGen.head e1 (Relation.TransGen.single e2)⟩
  exact ⟨hwf, hcyc, resolve_cyclic_error regWitness hwf hcyc⟩
